import Mathlib

/-!
# AK/Endian.h: byte-order conversions and endian-tagged wrappers

A shallow embedding of `bootstrap/stage0/runtime/AK/Endian.h`.

* The preprocessor constant `__BYTE_ORDER__` is the explicit parameter `host`.
* A template argument `T` is a `ScalarType` (its `sizeof` and its signedness); a value
  of type `T` is an `Int` lying in the range of `T`.
* `static_cast` between integer types is reduction modulo `2 ^ bits`, read back as a
  two's-complement number for a signed target.
* A conversion returns `Option Int`: `some r` when a `return` statement is reached and
  `none` when the `if constexpr` chain ends without one.
* `bytes()` is a view of the storage of `m_value`: the object representation of a scalar
  on the host, least significant byte first on a little-endian host and most significant
  byte first on a big-endian host.
* `Formatter<T>::format` and `Traits<T>::is_trivially_serializable` live in other headers
  and are parameters of the specializations defined here.
-/

namespace AK

/-- The value of `__BYTE_ORDER__`: `__ORDER_LITTLE_ENDIAN__` or `__ORDER_BIG_ENDIAN__`. -/
inductive ByteOrder where
  | little
  | big
  deriving DecidableEq, Repr

/-- An integer type as the templates see it: `sizeof(T)` and whether it is signed. -/
structure ScalarType where
  size : Nat
  is_signed : Bool
  deriving DecidableEq, Repr

/-- Number of value bits of `T`. -/
def ScalarType.bits (T : ScalarType) : Nat := 8 * T.size

/-- Smallest value of `T`. -/
def ScalarType.min_value (T : ScalarType) : Int :=
  if T.is_signed then -(2 ^ (T.bits - 1)) else 0

/-- Largest value of `T`. -/
def ScalarType.max_value (T : ScalarType) : Int :=
  if T.is_signed then 2 ^ (T.bits - 1) - 1 else 2 ^ T.bits - 1

/-- The integer `v` is a value of type `T`. -/
def ScalarType.holds (T : ScalarType) (v : Int) : Prop :=
  T.min_value ≤ v ∧ v ≤ T.max_value

instance (T : ScalarType) (v : Int) : Decidable (T.holds v) := by
  unfold ScalarType.holds; infer_instance

/-- The sizes the `if constexpr` chains dispatch on. -/
def ScalarType.supported (T : ScalarType) : Prop :=
  T.size = 1 ∨ T.size = 2 ∨ T.size = 4 ∨ T.size = 8

instance (T : ScalarType) : Decidable T.supported := by
  unfold ScalarType.supported; infer_instance

def u8 : ScalarType := ⟨1, false⟩
def u16 : ScalarType := ⟨2, false⟩
def u32 : ScalarType := ⟨4, false⟩
def u64 : ScalarType := ⟨8, false⟩
def i8 : ScalarType := ⟨1, true⟩
def i16 : ScalarType := ⟨2, true⟩
def i32 : ScalarType := ⟨4, true⟩
def i64 : ScalarType := ⟨8, true⟩

/-- The conversion `static_cast<T>(v)` between integer types: the unique value of `T`
congruent to `v` modulo `2 ^ bits`. -/
def static_cast (T : ScalarType) (v : Int) : Int :=
  let m := v % 2 ^ T.bits
  if T.is_signed ∧ 2 ^ (T.bits - 1) ≤ m then m - 2 ^ T.bits else m

/-- The compiler builtin `__builtin_bswap16` on a 16-bit unsigned value. -/
def __builtin_bswap16 (x : Int) : Int :=
  (x % 256) * 256 + x / 256 % 256

/-- The compiler builtin `__builtin_bswap32` on a 32-bit unsigned value. -/
def __builtin_bswap32 (x : Int) : Int :=
  (x % 256) * 2 ^ 24 + (x / 2 ^ 8 % 256) * 2 ^ 16 + (x / 2 ^ 16 % 256) * 2 ^ 8
    + x / 2 ^ 24 % 256

/-- The compiler builtin `__builtin_bswap64` on a 64-bit unsigned value. -/
def __builtin_bswap64 (x : Int) : Int :=
  (x % 256) * 2 ^ 56 + (x / 2 ^ 8 % 256) * 2 ^ 48 + (x / 2 ^ 16 % 256) * 2 ^ 40
    + (x / 2 ^ 24 % 256) * 2 ^ 32 + (x / 2 ^ 32 % 256) * 2 ^ 24
    + (x / 2 ^ 40 % 256) * 2 ^ 16 + (x / 2 ^ 48 % 256) * 2 ^ 8 + x / 2 ^ 56 % 256

/-- The `if constexpr` chain on `sizeof(T)`, which both conversions contain verbatim
(each on the host where it has to reorder bytes). -/
def swap_dispatch (T : ScalarType) (value : Int) : Option Int :=
  if T.size = 8 then
    some (static_cast T (__builtin_bswap64 (static_cast u64 value)))
  else if T.size = 4 then
    some (static_cast T (__builtin_bswap32 (static_cast u32 value)))
  else if T.size = 2 then
    some (static_cast T (__builtin_bswap16 (static_cast u16 value)))
  else if T.size = 1 then
    some value
  else
    none

/-- The function `convert_between_host_and_little_endian<T>(value)`. -/
def convert_between_host_and_little_endian (host : ByteOrder) (T : ScalarType)
    (value : Int) : Option Int :=
  match host with
  | .little => some value
  | .big =>
    if T.size = 8 then
      some (static_cast T (__builtin_bswap64 (static_cast u64 value)))
    else if T.size = 4 then
      some (static_cast T (__builtin_bswap32 (static_cast u32 value)))
    else if T.size = 2 then
      some (static_cast T (__builtin_bswap16 (static_cast u16 value)))
    else if T.size = 1 then
      some value
    else
      none

/-- The function `convert_between_host_and_big_endian<T>(value)`. -/
def convert_between_host_and_big_endian (host : ByteOrder) (T : ScalarType)
    (value : Int) : Option Int :=
  match host with
  | .little =>
    if T.size = 8 then
      some (static_cast T (__builtin_bswap64 (static_cast u64 value)))
    else if T.size = 4 then
      some (static_cast T (__builtin_bswap32 (static_cast u32 value)))
    else if T.size = 2 then
      some (static_cast T (__builtin_bswap16 (static_cast u16 value)))
    else if T.size = 1 then
      some value
    else
      none
  | .big => some value

/-- The function `convert_between_host_and_network_endian<T>(value)`. -/
def convert_between_host_and_network_endian (host : ByteOrder) (T : ScalarType)
    (value : Int) : Option Int :=
  convert_between_host_and_big_endian host T value

/-- Byte `i` of the two's-complement bit pattern of `v` as a `T`, byte `0` being the
least significant one. -/
def ScalarType.byte (T : ScalarType) (v : Int) (i : Nat) : Int :=
  v % 2 ^ T.bits / 256 ^ i % 256

/-- The unsigned number whose base-256 digits, least significant first, are `bs`. -/
def le_value : List Int → Int
  | [] => 0
  | b :: bs => b + 256 * le_value bs

/-- Every element of `bs` is a value of `u8`. -/
def valid_bytes (bs : List Int) : Prop := ∀ c ∈ bs, 0 ≤ c ∧ c < 256

instance (bs : List Int) : Decidable (valid_bytes bs) := by
  unfold valid_bytes; infer_instance

/-- The storage of a scalar `v` of type `T` on the host, in address order: the
`sizeof(T)` bytes that a span `{ &v, sizeof(v) }` ranges over. -/
def object_representation (host : ByteOrder) (T : ScalarType) (v : Int) : List Int :=
  (List.range T.size).map fun i =>
    match host with
    | .little => T.byte v i
    | .big => T.byte v (T.size - 1 - i)

/-- The value of type `T` that the host reads from storage holding the bytes `bs`. -/
def value_of_representation (host : ByteOrder) (T : ScalarType) (bs : List Int) : Int :=
  match host with
  | .little => static_cast T (le_value bs)
  | .big => static_cast T (le_value bs.reverse)

/-- The scalar after the byte at offset `i` of its storage is assigned `c`. -/
def store_byte (host : ByteOrder) (T : ScalarType) (v : Int) (i : Nat) (c : Int) : Int :=
  value_of_representation host T ((object_representation host T v).set i c)

/-- The scalar after the bytes at offsets `0, 1, ...` of its storage are assigned the
elements of `b`, one store after the other. -/
def store_bytes (host : ByteOrder) (T : ScalarType) (v : Int) (b : List Int) : Int :=
  b.enum.foldl (fun m p => store_byte host T m p.1 p.2) v

/-- The class `LittleEndian<T>`: its only member is `m_value`. -/
structure LittleEndian (T : ScalarType) where
  m_value : Int
  deriving DecidableEq, Repr

/-- The constructor `LittleEndian() = default`, with the member initializer `m_value { 0 }`. -/
def LittleEndian.ctor_default (T : ScalarType) : LittleEndian T := ⟨0⟩

/-- The constructor `LittleEndian(T value)`. -/
def LittleEndian.ctor (host : ByteOrder) (T : ScalarType) (value : Int) :
    Option (LittleEndian T) :=
  (convert_between_host_and_little_endian host T value).map fun m => ⟨m⟩

/-- The conversion `operator T() const`. -/
def LittleEndian.operator_T (host : ByteOrder) {T : ScalarType} (w : LittleEndian T) :
    Option Int :=
  convert_between_host_and_little_endian host T w.m_value

/-- The member `bytes()`: the span `{ &m_value, sizeof(m_value) }`, read. -/
def LittleEndian.bytes (host : ByteOrder) {T : ScalarType} (w : LittleEndian T) : List Int :=
  object_representation host T w.m_value

/-- The wrapper after the elements of `b` are written through the mutable `bytes()`
span at offsets `0, 1, ...`. -/
def LittleEndian.overwrite_bytes (host : ByteOrder) {T : ScalarType} (w : LittleEndian T)
    (b : List Int) : LittleEndian T :=
  ⟨store_bytes host T w.m_value b⟩

/-- The class `BigEndian<T>`: its only member is `m_value`. -/
structure BigEndian (T : ScalarType) where
  m_value : Int
  deriving DecidableEq, Repr

/-- The constructor `BigEndian() = default`, with the member initializer `m_value { 0 }`. -/
def BigEndian.ctor_default (T : ScalarType) : BigEndian T := ⟨0⟩

/-- The constructor `BigEndian(T value)`. -/
def BigEndian.ctor (host : ByteOrder) (T : ScalarType) (value : Int) :
    Option (BigEndian T) :=
  (convert_between_host_and_big_endian host T value).map fun m => ⟨m⟩

/-- The conversion `operator T() const`. -/
def BigEndian.operator_T (host : ByteOrder) {T : ScalarType} (w : BigEndian T) :
    Option Int :=
  convert_between_host_and_big_endian host T w.m_value

/-- The member `bytes()`: the span `{ &m_value, sizeof(m_value) }`, read. -/
def BigEndian.bytes (host : ByteOrder) {T : ScalarType} (w : BigEndian T) : List Int :=
  object_representation host T w.m_value

/-- The wrapper after the elements of `b` are written through the mutable `bytes()`
span at offsets `0, 1, ...`. -/
def BigEndian.overwrite_bytes (host : ByteOrder) {T : ScalarType} (w : BigEndian T)
    (b : List Int) : BigEndian T :=
  ⟨store_bytes host T w.m_value b⟩

/-- The alias `template<typename T> using NetworkOrdered = BigEndian<T>`. -/
abbrev NetworkOrdered (T : ScalarType) : Type := BigEndian T

/-- The non-const overload `Bytes bytes()`: the same span `{ &m_value, sizeof(m_value) }`
as the const overload; stores through it are `overwrite_bytes`. -/
def LittleEndian.bytes_mut (host : ByteOrder) {T : ScalarType} (w : LittleEndian T) :
    List Int :=
  object_representation host T w.m_value

/-- The non-const overload `Bytes bytes()`: the same span `{ &m_value, sizeof(m_value) }`
as the const overload; stores through it are `overwrite_bytes`. -/
def BigEndian.bytes_mut (host : ByteOrder) {T : ScalarType} (w : BigEndian T) : List Int :=
  object_representation host T w.m_value

/-- The specialization `Formatter<LittleEndian<T>> : Formatter<T>`, whose body is empty:
the `format` it inherits takes a `T`, so a wrapper handed to it is converted by
`operator T` first. The parameter `format_T` is the `format` of `Formatter<T>`, which
exists by `requires(HasFormatter<T>)`. -/
def LittleEndian.format {α : Type} (host : ByteOrder) {T : ScalarType} (format_T : Int → α)
    (w : LittleEndian T) : Option α :=
  (w.operator_T host).map format_T

/-- The specialization `Formatter<BigEndian<T>> : Formatter<T>`, whose body is empty:
the `format` it inherits takes a `T`, so a wrapper handed to it is converted by
`operator T` first. The parameter `format_T` is the `format` of `Formatter<T>`, which
exists by `requires(HasFormatter<T>)`. -/
def BigEndian.format {α : Type} (host : ByteOrder) {T : ScalarType} (format_T : Int → α)
    (w : BigEndian T) : Option α :=
  (w.operator_T host).map format_T

/-- The member of a `Traits<...>` specialization that this header defines. -/
structure Traits where
  is_trivially_serializable : Bool
  deriving DecidableEq, Repr

/-- The specialization `Traits<LittleEndian<T>>`, given `Traits<T>`. -/
def Traits_LittleEndian (traits_T : Traits) : Traits where
  is_trivially_serializable := traits_T.is_trivially_serializable

/-- The specialization `Traits<BigEndian<T>>`, given `Traits<T>`. -/
def Traits_BigEndian (traits_T : Traits) : Traits where
  is_trivially_serializable := traits_T.is_trivially_serializable

/-- The unsigned integer type of the width of `T`: `u8`, `u16`, `u32` or `u64` on the
supported sizes. -/
def ScalarType.make_unsigned (T : ScalarType) : ScalarType := ⟨T.size, false⟩

/-- The full byte reversal of `x`, as the specification words it: the value of `T` whose
bytes are the bytes of `x` in the opposite order. -/
def byte_reverse (T : ScalarType) (x : Int) : Int :=
  static_cast T (le_value ((List.range T.size).map (T.byte x)).reverse)

example : convert_between_host_and_big_endian .little u32 0x12345678 = some 0x78563412 := by
  decide
example : convert_between_host_and_big_endian .little i16 (-2) = some (-257) := by
  decide
example : (BigEndian.ctor .little u32 0x12345678).map (BigEndian.bytes .little)
    = some [0x12, 0x34, 0x56, 0x78] := by decide
example : (BigEndian.ctor .big u32 0x12345678).map (BigEndian.bytes .big)
    = some [0x12, 0x34, 0x56, 0x78] := by decide
example : (LittleEndian.ctor .big u32 0x12345678).map (LittleEndian.bytes .big)
    = some [0x78, 0x56, 0x34, 0x12] := by decide
example : BigEndian.operator_T .little
    ((BigEndian.ctor_default i32).overwrite_bytes .little [0xff, 0xff, 0xff, 0xfe])
    = some (-2) := by decide
example : LittleEndian.operator_T .big
    ((LittleEndian.ctor_default i32).overwrite_bytes .big [0xfe, 0xff, 0xff, 0xff])
    = some (-2) := by decide
example : byte_reverse i16 (-2) = -257 := by decide
example : convert_between_host_and_little_endian .big ⟨16, false⟩ 1 = none := by decide
example : convert_between_host_and_little_endian .little ⟨16, false⟩ 1 = some 1 := by decide
example : LittleEndian.format .big (fun n => 2 * n) (LittleEndian.mk 256 : LittleEndian u16)
    = some 2 := by decide

/-! ## Arithmetic of base-256 digits -/

theorem int_ediv_ediv (u a b : Int) (ha : 0 < a) (hb : 0 < b) : u / a / b = u / (a * b) := by
  apply eq_of_forall_le_iff
  intro z
  rw [Int.le_ediv_iff_mul_le hb, Int.le_ediv_iff_mul_le ha,
    Int.le_ediv_iff_mul_le (mul_pos ha hb), mul_assoc, mul_comm b a]

theorem le_value_bounds (bs : List Int) (h : valid_bytes bs) :
    0 ≤ le_value bs ∧ le_value bs < 256 ^ bs.length := by
  induction bs with
  | nil => simp [le_value]
  | cons b bs ih =>
    have hb := h b (List.mem_cons_self _ _)
    have ht := ih (fun c hc => h c (List.mem_cons_of_mem _ hc))
    simp only [le_value, List.length_cons, pow_succ]
    generalize (256 : Int) ^ bs.length = P at ht ⊢
    omega

theorem le_value_byte (bs : List Int) (h : valid_bytes bs) (i : Nat) (hi : i < bs.length) :
    le_value bs / 256 ^ i % 256 = bs.getD i 0 := by
  induction bs generalizing i with
  | nil => simp at hi
  | cons b bs ih =>
    have hb := h b (List.mem_cons_self _ _)
    have ht : valid_bytes bs := fun c hc => h c (List.mem_cons_of_mem _ hc)
    cases i with
    | zero =>
      simp only [le_value, pow_zero, List.getD_cons_zero]
      omega
    | succ i =>
      have hi2 : i < bs.length := by simpa using hi
      have hq : (b + 256 * le_value bs) / 256 = le_value bs := by omega
      rw [le_value, pow_succ', ← int_ediv_ediv _ _ _ (by norm_num) (by positivity), hq]
      simpa using ih ht i hi2

theorem le_value_digits (k : Nat) (u : Int) (h0 : 0 ≤ u) (h1 : u < 256 ^ k) :
    le_value ((List.range k).map fun i => u / 256 ^ i % 256) = u := by
  induction k generalizing u with
  | zero =>
    simp at h1
    simp [le_value]; omega
  | succ k ih =>
    have h2 : u / 256 < 256 ^ k := by
      rw [pow_succ] at h1
      generalize (256 : Int) ^ k = P at h1 ⊢
      omega
    have h3 := ih (u / 256) (by omega) h2
    rw [List.range_succ_eq_map, List.map_cons, List.map_map, le_value]
    have : ((fun i => u / 256 ^ i % 256) ∘ Nat.succ) = fun i => u / 256 / 256 ^ i % 256 := by
      funext i
      simp only [Function.comp, Nat.succ_eq_add_one, pow_succ']
      rw [← int_ediv_ediv _ _ _ (by norm_num) (by positivity)]
    rw [this, h3]
    simp
    omega

/-! ## Integer conversions -/

theorem pow_bits (T : ScalarType) : (2 : Int) ^ T.bits = 256 ^ T.size := by
  unfold ScalarType.bits
  rw [pow_mul]
  norm_num

theorem static_cast_emod (T : ScalarType) (y : Int) :
    static_cast T y % 2 ^ T.bits = y % 2 ^ T.bits := by
  unfold static_cast
  simp only
  split_ifs
  · rw [Int.emod_sub_cancel, Int.emod_emod]
  · rw [Int.emod_emod]

theorem static_cast_holds (T : ScalarType) (hk : 0 < T.size) (y : Int) :
    T.holds (static_cast T y) := by
  obtain ⟨k, s⟩ := T
  obtain ⟨n, hn⟩ : ∃ n, 8 * k = n + 1 := ⟨8 * k - 1, by simp at hk; omega⟩
  have hH : (0 : Int) < 2 ^ n := by positivity
  have hm0 : 0 ≤ y % (2 ^ n * 2) := Int.emod_nonneg _ (by positivity)
  have hm1 : y % (2 ^ n * 2) < 2 ^ n * 2 := Int.emod_lt_of_pos _ (by positivity)
  unfold ScalarType.holds ScalarType.min_value ScalarType.max_value static_cast
  simp only [ScalarType.bits, hn, Nat.add_sub_cancel, pow_succ]
  generalize y % (2 ^ n * 2) = m at hm0 hm1 ⊢
  generalize (2 : Int) ^ n = H at hH hm0 hm1 ⊢
  cases s
  · simp
    omega
  · simp
    split_ifs <;> omega

theorem static_cast_of_holds (T : ScalarType) (hk : 0 < T.size) (x : Int) (hx : T.holds x) :
    static_cast T x = x := by
  obtain ⟨k, s⟩ := T
  obtain ⟨n, hn⟩ : ∃ n, 8 * k = n + 1 := ⟨8 * k - 1, by simp at hk; omega⟩
  have hH : (0 : Int) < 2 ^ n := by positivity
  unfold ScalarType.holds ScalarType.min_value ScalarType.max_value at hx
  unfold static_cast
  simp only [ScalarType.bits, hn, Nat.add_sub_cancel, pow_succ] at hx ⊢
  generalize (2 : Int) ^ n = H at hH hx ⊢
  by_cases h0 : 0 ≤ x
  · have hm : x % (H * 2) = x :=
      Int.emod_eq_of_lt h0 (by cases s <;> simp at hx <;> omega)
    rw [hm]
    cases s
    · simp
    · simp at hx ⊢
      omega
  · have hm : x % (H * 2) = x + H * 2 := by
      rw [← Int.add_emod_self]
      exact Int.emod_eq_of_lt (by cases s <;> simp at hx <;> omega) (by omega)
    rw [hm]
    cases s
    · simp at hx
      omega
    · simp at hx ⊢
      omega

theorem byte_bounds (T : ScalarType) (v : Int) (i : Nat) :
    0 ≤ T.byte v i ∧ T.byte v i < 256 := by
  unfold ScalarType.byte
  exact ⟨Int.emod_nonneg _ (by norm_num), Int.emod_lt_of_pos _ (by norm_num)⟩

/-- The bytes of `v`, least significant first. -/
theorem le_value_bytes (T : ScalarType) (v : Int) :
    le_value ((List.range T.size).map (T.byte v)) = v % 2 ^ T.bits := by
  have h0 : 0 ≤ v % 2 ^ T.bits := Int.emod_nonneg _ (by positivity)
  have h1 : v % 2 ^ T.bits < 256 ^ T.size := by
    rw [← pow_bits]
    exact Int.emod_lt_of_pos _ (by positivity)
  exact le_value_digits T.size (v % 2 ^ T.bits) h0 h1

theorem bytes_valid (T : ScalarType) (v : Int) (n : Nat) :
    valid_bytes ((List.range n).map (T.byte v)) := by
  intro c hc
  obtain ⟨i, _, rfl⟩ := List.mem_map.mp hc
  exact byte_bounds T v i

/-- Two values of `T` with the same bytes are equal. -/
theorem eq_of_bytes (T : ScalarType) (hk : 0 < T.size) (a b : Int) (ha : T.holds a)
    (hb : T.holds b) (h : ∀ i, i < T.size → T.byte a i = T.byte b i) : a = b := by
  have hl : (List.range T.size).map (T.byte a) = (List.range T.size).map (T.byte b) :=
    List.map_congr_left fun i hi => h i (List.mem_range.mp hi)
  have hp : a % 2 ^ T.bits = b % 2 ^ T.bits := by
    rw [← le_value_bytes, ← le_value_bytes, hl]
  have hc : static_cast T a = static_cast T b := by
    unfold static_cast
    rw [hp]
  rwa [static_cast_of_holds T hk a ha, static_cast_of_holds T hk b hb] at hc

theorem getD_reverse (l : List Int) (i : Nat) (hi : i < l.length) :
    l.reverse.getD i 0 = l.getD (l.length - 1 - i) 0 := by
  rw [List.getD_eq_getElem?_getD, List.getD_eq_getElem?_getD, List.getElem?_reverse hi]

theorem getD_bytes (T : ScalarType) (v : Int) (n i : Nat) (hi : i < n) :
    ((List.range n).map (T.byte v)).getD i 0 = T.byte v i := by
  rw [List.getD_eq_getElem?_getD, List.getElem?_map, List.getElem?_range hi]
  rfl

/-- Byte `i` of the value read from the digits `ds`. -/
theorem byte_static_cast_le_value (T : ScalarType) (ds : List Int) (hv : valid_bytes ds)
    (hl : ds.length = T.size) (i : Nat) (hi : i < T.size) :
    T.byte (static_cast T (le_value ds)) i = ds.getD i 0 := by
  have hb := le_value_bounds ds hv
  unfold ScalarType.byte
  rw [static_cast_emod, Int.emod_eq_of_lt hb.1 (by rw [pow_bits, ← hl]; exact hb.2)]
  exact le_value_byte ds hv i (by omega)

/-! ## The byte-swap builtins -/

theorem bswap16_of_digits (b0 b1 : Int) (h0 : 0 ≤ b0 ∧ b0 < 256) (h1 : 0 ≤ b1 ∧ b1 < 256) :
    __builtin_bswap16 (le_value [b0, b1]) = le_value [b1, b0] := by
  unfold __builtin_bswap16
  simp only [le_value]
  omega

theorem bswap32_of_digits (b0 b1 b2 b3 : Int) (h0 : 0 ≤ b0 ∧ b0 < 256)
    (h1 : 0 ≤ b1 ∧ b1 < 256) (h2 : 0 ≤ b2 ∧ b2 < 256) (h3 : 0 ≤ b3 ∧ b3 < 256) :
    __builtin_bswap32 (le_value [b0, b1, b2, b3]) = le_value [b3, b2, b1, b0] := by
  unfold __builtin_bswap32
  simp only [le_value]
  omega

theorem bswap64_of_digits (b0 b1 b2 b3 b4 b5 b6 b7 : Int)
    (h0 : 0 ≤ b0 ∧ b0 < 256) (h1 : 0 ≤ b1 ∧ b1 < 256) (h2 : 0 ≤ b2 ∧ b2 < 256)
    (h3 : 0 ≤ b3 ∧ b3 < 256) (h4 : 0 ≤ b4 ∧ b4 < 256) (h5 : 0 ≤ b5 ∧ b5 < 256)
    (h6 : 0 ≤ b6 ∧ b6 < 256) (h7 : 0 ≤ b7 ∧ b7 < 256) :
    __builtin_bswap64 (le_value [b0, b1, b2, b3, b4, b5, b6, b7])
      = le_value [b7, b6, b5, b4, b3, b2, b1, b0] := by
  unfold __builtin_bswap64
  simp only [le_value]
  omega

theorem static_cast_unsigned (k : Nat) (x : Int) :
    static_cast ⟨k, false⟩ x = x % 2 ^ (ScalarType.mk k false).bits := by
  simp [static_cast]

theorem static_cast_emod_arg (T : ScalarType) (x : Int) :
    static_cast T (x % 2 ^ T.bits) = static_cast T x := by
  unfold static_cast
  rw [Int.emod_emod]

/-- On a supported size the dispatch returns the value read from the reversed bytes. -/
theorem swap_dispatch_eq (T : ScalarType) (hT : T.supported) (x : Int) (hx : T.holds x) :
    swap_dispatch T x
      = some (static_cast T (le_value ((List.range T.size).map (T.byte x)).reverse)) := by
  obtain ⟨k, s⟩ := T
  have hd := le_value_bytes ⟨k, s⟩ x
  have hb := byte_bounds ⟨k, s⟩ x
  rcases hT with h | h | h | h <;> simp only at h <;> subst h
  · have h1 : ((List.range 1).map ((ScalarType.mk 1 s).byte x)).reverse
        = (List.range 1).map ((ScalarType.mk 1 s).byte x) := rfl
    simp only [h1, hd, static_cast_emod_arg]
    rw [static_cast_of_holds _ (Nat.one_pos) x hx]
    rfl
  · have h1 : (List.range 2).map ((ScalarType.mk 2 s).byte x)
        = [(ScalarType.mk 2 s).byte x 0, (ScalarType.mk 2 s).byte x 1] := rfl
    have h2 : static_cast u16 x = x % 2 ^ (ScalarType.mk 2 s).bits := static_cast_unsigned 2 x
    simp only [swap_dispatch]
    rw [h2, ← hd, h1, bswap16_of_digits _ _ (hb 0) (hb 1)]
    rfl
  · have h1 : (List.range 4).map ((ScalarType.mk 4 s).byte x)
        = [(ScalarType.mk 4 s).byte x 0, (ScalarType.mk 4 s).byte x 1,
           (ScalarType.mk 4 s).byte x 2, (ScalarType.mk 4 s).byte x 3] := rfl
    have h2 : static_cast u32 x = x % 2 ^ (ScalarType.mk 4 s).bits := static_cast_unsigned 4 x
    simp only [swap_dispatch]
    rw [h2, ← hd, h1, bswap32_of_digits _ _ _ _ (hb 0) (hb 1) (hb 2) (hb 3)]
    rfl
  · have h1 : (List.range 8).map ((ScalarType.mk 8 s).byte x)
        = [(ScalarType.mk 8 s).byte x 0, (ScalarType.mk 8 s).byte x 1,
           (ScalarType.mk 8 s).byte x 2, (ScalarType.mk 8 s).byte x 3,
           (ScalarType.mk 8 s).byte x 4, (ScalarType.mk 8 s).byte x 5,
           (ScalarType.mk 8 s).byte x 6, (ScalarType.mk 8 s).byte x 7] := rfl
    have h2 : static_cast u64 x = x % 2 ^ (ScalarType.mk 8 s).bits := static_cast_unsigned 8 x
    simp only [swap_dispatch]
    rw [h2, ← hd, h1, bswap64_of_digits _ _ _ _ _ _ _ _ (hb 0) (hb 1) (hb 2) (hb 3) (hb 4)
      (hb 5) (hb 6) (hb 7)]
    rfl

theorem supported_pos (T : ScalarType) (hT : T.supported) : 0 < T.size := by
  unfold ScalarType.supported at hT
  omega

/-- The dispatch returns a value of `T` whose bytes are those of `x` in reverse order. -/
theorem swap_dispatch_spec (T : ScalarType) (hT : T.supported) (x : Int) (hx : T.holds x) :
    ∃ r, swap_dispatch T x = some r ∧ T.holds r ∧
      ∀ i, i < T.size → T.byte r i = T.byte x (T.size - 1 - i) := by
  refine ⟨_, swap_dispatch_eq T hT x hx, static_cast_holds T (supported_pos T hT) _, ?_⟩
  intro i hi
  have hv : valid_bytes ((List.range T.size).map (T.byte x)).reverse := by
    intro c hc
    exact bytes_valid T x T.size c (List.mem_reverse.mp hc)
  rw [byte_static_cast_le_value T _ hv (by simp) i hi, getD_reverse _ _ (by simpa using hi),
    List.length_map, List.length_range, getD_bytes T x _ _ (by omega)]

/-- Applying the dispatch twice gives the value back. -/
theorem swap_dispatch_twice (T : ScalarType) (hT : T.supported) (x : Int) (hx : T.holds x) :
    (swap_dispatch T x).bind (swap_dispatch T) = some x := by
  obtain ⟨r, hr, hrT, hrb⟩ := swap_dispatch_spec T hT x hx
  obtain ⟨r2, hr2, hr2T, hr2b⟩ := swap_dispatch_spec T hT r hrT
  rw [hr, Option.some_bind, hr2]
  congr 1
  apply eq_of_bytes T (supported_pos T hT) r2 x hr2T hx
  intro i hi
  rw [hr2b i hi, hrb _ (by omega)]
  congr 1
  omega

/-! ## Storage of a scalar -/

theorem object_representation_length (host : ByteOrder) (T : ScalarType) (v : Int) :
    (object_representation host T v).length = T.size := by
  simp [object_representation]

theorem object_representation_valid (host : ByteOrder) (T : ScalarType) (v : Int) :
    valid_bytes (object_representation host T v) := by
  intro c hc
  obtain ⟨i, _, rfl⟩ := List.mem_map.mp hc
  cases host <;> exact byte_bounds T v _

theorem object_representation_getElem? (host : ByteOrder) (T : ScalarType) (v : Int)
    (i : Nat) (hi : i < T.size) :
    (object_representation host T v)[i]? =
      some (match host with
        | .little => T.byte v i
        | .big => T.byte v (T.size - 1 - i)) := by
  unfold object_representation
  rw [List.getElem?_map, List.getElem?_range hi]
  cases host <;> rfl

theorem getElem?_eq_getD (l : List Int) (i : Nat) (hi : i < l.length) :
    l[i]? = some (l.getD i 0) := by
  rw [List.getD_eq_getElem?_getD, List.getElem?_eq_getElem hi]
  rfl

/-- Reading back what was stored: the storage of the value read from `bs` is `bs`. -/
theorem object_representation_value (host : ByteOrder) (T : ScalarType) (bs : List Int)
    (hv : valid_bytes bs) (hl : bs.length = T.size) :
    object_representation host T (value_of_representation host T bs) = bs := by
  apply List.ext_getElem?
  intro i
  by_cases hi : i < T.size
  · rw [object_representation_getElem? host T _ i hi, getElem?_eq_getD bs i (by omega)]
    congr 1
    cases host
    · exact byte_static_cast_le_value T bs hv hl i hi
    · have hv2 : valid_bytes bs.reverse := fun c hc => hv c (List.mem_reverse.mp hc)
      simp only [value_of_representation]
      rw [byte_static_cast_le_value T bs.reverse hv2 (by simpa using hl) _ (by omega),
        getD_reverse _ _ (by omega), hl]
      congr 1
      omega
  · rw [List.getElem?_eq_none (by rw [object_representation_length]; omega),
      List.getElem?_eq_none (by omega)]

theorem value_of_representation_holds (host : ByteOrder) (T : ScalarType) (hk : 0 < T.size)
    (bs : List Int) : T.holds (value_of_representation host T bs) := by
  cases host <;> exact static_cast_holds T hk _

theorem store_byte_representation (host : ByteOrder) (T : ScalarType) (m : Int) (i : Nat)
    (c : Int) (hc : 0 ≤ c ∧ c < 256) :
    object_representation host T (store_byte host T m i c)
      = (object_representation host T m).set i c := by
  apply object_representation_value
  · intro d hd
    rcases List.mem_or_eq_of_mem_set hd with h | h
    · exact object_representation_valid host T m d h
    · exact h ▸ hc
  · rw [List.length_set, object_representation_length]

theorem foldl_store_representation (host : ByteOrder) (T : ScalarType)
    (ps : List (Nat × Int)) (hps : ∀ p ∈ ps, 0 ≤ p.2 ∧ p.2 < 256) (m : Int) :
    object_representation host T (ps.foldl (fun m p => store_byte host T m p.1 p.2) m)
      = ps.foldl (fun l p => l.set p.1 p.2) (object_representation host T m) := by
  induction ps generalizing m with
  | nil => rfl
  | cons p ps ih =>
    simp only [List.foldl_cons]
    rw [ih (fun q hq => hps q (List.mem_cons_of_mem _ hq)),
      store_byte_representation host T m p.1 p.2 (hps p (List.mem_cons_self _ _))]

theorem foldl_store_is_value (host : ByteOrder) (T : ScalarType)
    (ps : List (Nat × Int)) (hps : ∀ p ∈ ps, 0 ≤ p.2 ∧ p.2 < 256) (m : Int)
    (hm : m = value_of_representation host T (object_representation host T m) ∨ ps ≠ []) :
    ps.foldl (fun m p => store_byte host T m p.1 p.2) m
      = value_of_representation host T (object_representation host T
          (ps.foldl (fun m p => store_byte host T m p.1 p.2) m)) := by
  induction ps generalizing m with
  | nil => simpa using hm
  | cons p ps ih =>
    simp only [List.foldl_cons]
    apply ih (fun q hq => hps q (List.mem_cons_of_mem _ hq))
    left
    rw [store_byte_representation host T m p.1 p.2 (hps p (List.mem_cons_self _ _))]
    rfl

theorem foldl_set_enumFrom (b : List Int) (j : Nat) (l : List Int)
    (hl : l.length = j + b.length) :
    (b.enumFrom j).foldl (fun l p => l.set p.1 p.2) l = l.take j ++ b := by
  induction b generalizing j l with
  | nil =>
    simp at hl
    simp [List.take_of_length_le (Nat.le_of_eq hl)]
  | cons c b ih =>
    simp only [List.enumFrom_cons, List.foldl_cons]
    simp only [List.length_cons] at hl
    rw [ih (j + 1) (l.set j c) (by rw [List.length_set]; omega),
      List.set_eq_take_cons_drop c (by omega : j < l.length),
      List.take_append_eq_append_take]
    simp [List.take_take, List.length_take, Nat.min_eq_left (by omega : j ≤ l.length)]

/-- Overwriting every byte of the storage leaves exactly the value read from the new
bytes, whatever was stored before. -/
theorem store_bytes_eq (host : ByteOrder) (T : ScalarType) (hk : 0 < T.size) (m : Int)
    (b : List Int) (hv : valid_bytes b) (hl : b.length = T.size) :
    store_bytes host T m b = value_of_representation host T b := by
  have hps : ∀ p ∈ b.enum, 0 ≤ p.2 ∧ p.2 < 256 := by
    intro p hp
    obtain ⟨i, c⟩ := p
    obtain ⟨h1, h2⟩ := List.mem_enum hp
    simp only [h2]
    exact hv _ (List.getElem_mem _)
  have hne : b.enum ≠ [] := by
    intro h
    rw [List.enum_eq_nil] at h
    subst h
    simp at hl
    omega
  unfold store_bytes
  rw [foldl_store_is_value host T b.enum hps m (Or.inr hne),
    foldl_store_representation host T b.enum hps m, List.enum_eq_enumFrom,
    foldl_set_enumFrom b 0 _ (by rw [object_representation_length]; omega)]
  simp

theorem le_value_sum (b : List Int) :
    le_value b = ∑ i in Finset.range b.length, b.getD i 0 * 256 ^ i := by
  induction b with
  | nil => simp [le_value]
  | cons c b ih =>
    rw [le_value, ih, List.length_cons, Finset.sum_range_succ', Finset.mul_sum]
    simp only [List.getD_cons_succ, List.getD_cons_zero, pow_zero, mul_one, pow_succ]
    rw [add_comm]
    congr 1
    apply Finset.sum_congr rfl
    intro i _
    ring

theorem le_value_reverse_sum (b : List Int) :
    le_value b.reverse
      = ∑ i in Finset.range b.length, b.getD i 0 * 256 ^ (b.length - 1 - i) := by
  rw [le_value_sum, List.length_reverse,
    ← Finset.sum_range_reflect (fun i => b.getD i 0 * 256 ^ (b.length - 1 - i))]
  apply Finset.sum_congr rfl
  intro i hi
  have hi2 : i < b.length := Finset.mem_range.mp hi
  rw [getD_reverse b i hi2]
  congr 2
  omega

/-- The bytes of a value read from little-endian digits `ds` are `ds`. -/
theorem bytes_of_static_cast_le_value (T : ScalarType) (ds : List Int) (hv : valid_bytes ds)
    (hl : ds.length = T.size) :
    (List.range T.size).map (T.byte (static_cast T (le_value ds))) = ds :=
  object_representation_value .little T ds hv hl

/-- The dispatch applied to the value read from the digits `ds` reads `ds` reversed. -/
theorem swap_dispatch_le_value (T : ScalarType) (hT : T.supported) (ds : List Int)
    (hv : valid_bytes ds) (hl : ds.length = T.size) :
    swap_dispatch T (static_cast T (le_value ds))
      = some (static_cast T (le_value ds.reverse)) := by
  rw [swap_dispatch_eq T hT _ (static_cast_holds T (supported_pos T hT) _),
    bytes_of_static_cast_le_value T ds hv hl]

theorem convert_twice_aux (host : ByteOrder) (T : ScalarType) (x : Int)
    (hT : T.supported) (hx : T.holds x) :
    (convert_between_host_and_little_endian host T x).bind
        (convert_between_host_and_little_endian host T) = some x ∧
    (convert_between_host_and_big_endian host T x).bind
        (convert_between_host_and_big_endian host T) = some x := by
  have h := swap_dispatch_twice T hT x hx
  cases host
  · exact ⟨rfl, h⟩
  · exact ⟨h, rfl⟩

/-- Either conversion returns a value of `T` on a supported size. -/
theorem conversion_returns (host : ByteOrder) (T : ScalarType) (x : Int)
    (hT : T.supported) (hx : T.holds x) :
    (∃ r, convert_between_host_and_little_endian host T x = some r ∧ T.holds r) ∧
    (∃ r, convert_between_host_and_big_endian host T x = some r ∧ T.holds r) := by
  obtain ⟨r, hr, hrT, _⟩ := swap_dispatch_spec T hT x hx
  cases host
  · exact ⟨⟨x, rfl, hx⟩, ⟨r, hr, hrT⟩⟩
  · exact ⟨⟨r, hr, hrT⟩, ⟨x, rfl, hx⟩⟩

/-! ## The conversions -/

/-- C1: on either host, for every supported size, signed or unsigned, and every value `x`
of the type, each of the three conversions applied twice in succession returns `x`. -/
theorem conversion_twice_is_identity (host : ByteOrder) (T : ScalarType) (x : Int)
    (hT : T.supported) (hx : T.holds x) :
    (convert_between_host_and_little_endian host T x).bind
        (convert_between_host_and_little_endian host T) = some x ∧
    (convert_between_host_and_big_endian host T x).bind
        (convert_between_host_and_big_endian host T) = some x ∧
    (convert_between_host_and_network_endian host T x).bind
        (convert_between_host_and_network_endian host T) = some x := by
  have h := convert_twice_aux host T x hT hx
  exact ⟨h.1, h.2, h.2⟩

theorem conversion_twice_is_identity_witness :
    i32.supported ∧ i32.holds (-2) ∧
    ((convert_between_host_and_little_endian .big i32 (-2)).bind
        (convert_between_host_and_little_endian .big i32) = some (-2) ∧
    (convert_between_host_and_big_endian .big i32 (-2)).bind
        (convert_between_host_and_big_endian .big i32) = some (-2) ∧
    (convert_between_host_and_network_endian .big i32 (-2)).bind
        (convert_between_host_and_network_endian .big i32) = some (-2)) :=
  ⟨by decide, by decide, conversion_twice_is_identity .big i32 (-2) (by decide) (by decide)⟩

/-- C5: `convert_between_host_and_little_endian(x)` is `x` on a little-endian host, and on
a big-endian host it is the value of `T` whose byte `i` is byte `k - 1 - i` of `x`, for
every supported size `k` and every value `x`. -/
theorem little_endian_conversion_spec (host : ByteOrder) (T : ScalarType) (x : Int)
    (hT : T.supported) (hx : T.holds x) :
    (host = .little → convert_between_host_and_little_endian host T x = some x) ∧
    (host = .big → ∃ r, convert_between_host_and_little_endian host T x = some r ∧
      T.holds r ∧ ∀ i, i < T.size → T.byte r i = T.byte x (T.size - 1 - i)) := by
  constructor
  · rintro rfl
    rfl
  · rintro rfl
    exact swap_dispatch_spec T hT x hx

theorem little_endian_conversion_spec_witness :
    u32.supported ∧ u32.holds 0x12345678 ∧
    ((ByteOrder.big = .little →
        convert_between_host_and_little_endian .big u32 0x12345678 = some 0x12345678) ∧
    (ByteOrder.big = .big → ∃ r,
      convert_between_host_and_little_endian .big u32 0x12345678 = some r ∧
      u32.holds r ∧ ∀ i, i < u32.size → u32.byte r i = u32.byte 0x12345678 (u32.size - 1 - i))) :=
  ⟨by decide, by decide,
    little_endian_conversion_spec .big u32 0x12345678 (by decide) (by decide)⟩

/-- C6: `convert_between_host_and_big_endian(x)` is, on a little-endian host, the value of
`T` whose byte `i` is byte `k - 1 - i` of `x`, and it is `x` on a big-endian host, for
every supported size `k` and every value `x`. -/
theorem big_endian_conversion_spec (host : ByteOrder) (T : ScalarType) (x : Int)
    (hT : T.supported) (hx : T.holds x) :
    (host = .little → ∃ r, convert_between_host_and_big_endian host T x = some r ∧
      T.holds r ∧ ∀ i, i < T.size → T.byte r i = T.byte x (T.size - 1 - i)) ∧
    (host = .big → convert_between_host_and_big_endian host T x = some x) := by
  constructor
  · rintro rfl
    exact swap_dispatch_spec T hT x hx
  · rintro rfl
    rfl

theorem big_endian_conversion_spec_witness :
    i64.supported ∧ i64.holds (-0x0102030405060708) ∧
    ((ByteOrder.little = .little → ∃ r,
      convert_between_host_and_big_endian .little i64 (-0x0102030405060708) = some r ∧
      i64.holds r ∧ ∀ i, i < i64.size →
        i64.byte r i = i64.byte (-0x0102030405060708) (i64.size - 1 - i)) ∧
    (ByteOrder.little = .big →
      convert_between_host_and_big_endian .little i64 (-0x0102030405060708)
        = some (-0x0102030405060708))) :=
  ⟨by decide, by decide,
    big_endian_conversion_spec .little i64 (-0x0102030405060708) (by decide) (by decide)⟩

/-- C7: `convert_between_host_and_network_endian(x)` is the very result of
`convert_between_host_and_big_endian(x)`, on either host, for every type and every input,
and `NetworkOrdered<T>` is the type `BigEndian<T>`. -/
theorem network_endian_eq_big_endian (host : ByteOrder) (T : ScalarType) (x : Int) :
    convert_between_host_and_network_endian host T x
      = convert_between_host_and_big_endian host T x ∧
    NetworkOrdered T = BigEndian T :=
  ⟨rfl, rfl⟩

/-- C8: for a one-byte scalar both conversions return their argument, on either host. -/
theorem one_byte_conversion_is_identity (host : ByteOrder) (T : ScalarType) (x : Int)
    (h1 : T.size = 1) :
    convert_between_host_and_little_endian host T x = some x ∧
    convert_between_host_and_big_endian host T x = some x := by
  cases host <;>
    simp [convert_between_host_and_little_endian, convert_between_host_and_big_endian, h1]

theorem one_byte_conversion_is_identity_witness :
    i8.size = 1 ∧
    convert_between_host_and_little_endian .big i8 (-128) = some (-128) ∧
    convert_between_host_and_big_endian .big i8 (-128) = some (-128) :=
  ⟨rfl, one_byte_conversion_is_identity .big i8 (-128) rfl⟩

/-! ## The wrappers -/

/-- C2: on either host and for every supported size, a `LittleEndian<T>` (respectively a
`BigEndian<T>`) constructed from a value `v` of `T` reads back, through `operator T`,
as `v`. -/
theorem wrapper_round_trip (host : ByteOrder) (T : ScalarType) (v : Int)
    (hT : T.supported) (hv : T.holds v) :
    (LittleEndian.ctor host T v).bind (LittleEndian.operator_T host) = some v ∧
    (BigEndian.ctor host T v).bind (BigEndian.operator_T host) = some v := by
  have h := convert_twice_aux host T v hT hv
  constructor
  · unfold LittleEndian.ctor
    cases hc : convert_between_host_and_little_endian host T v with
    | none => simp [hc] at h
    | some m =>
      rw [hc] at h
      simpa [LittleEndian.operator_T] using h.1
  · unfold BigEndian.ctor
    cases hc : convert_between_host_and_big_endian host T v with
    | none => simp [hc] at h
    | some m =>
      rw [hc] at h
      simpa [BigEndian.operator_T] using h.2

theorem wrapper_round_trip_witness :
    u16.supported ∧ u16.holds 0xabcd ∧
    ((LittleEndian.ctor .big u16 0xabcd).bind (LittleEndian.operator_T .big) = some 0xabcd ∧
    (BigEndian.ctor .big u16 0xabcd).bind (BigEndian.operator_T .big) = some 0xabcd) :=
  ⟨by decide, by decide, wrapper_round_trip .big u16 0xabcd (by decide) (by decide)⟩

/-- C3: on either host, for every supported size `k` and every value `v`, the byte view of
`BigEndian<T>(v)` has `k` bytes and lists the bytes of `v` most significant first, and
the byte view of `LittleEndian<T>(v)` lists them least significant first; on both hosts
`BigEndian<u32>(0x12345678)` has the bytes `12 34 56 78` and
`LittleEndian<u32>(0x12345678)` the bytes `78 56 34 12`. -/
theorem wrapper_bytes_in_declared_order (host : ByteOrder) (T : ScalarType) (v : Int)
    (hT : T.supported) (hv : T.holds v) :
    (∃ w, BigEndian.ctor host T v = some w ∧ (w.bytes host).length = T.size ∧
      ∀ i, i < T.size → (w.bytes host)[i]? = some (T.byte v (T.size - 1 - i))) ∧
    (∃ w, LittleEndian.ctor host T v = some w ∧ (w.bytes host).length = T.size ∧
      ∀ i, i < T.size → (w.bytes host)[i]? = some (T.byte v i)) ∧
    (BigEndian.ctor host u32 0x12345678).map (BigEndian.bytes host)
      = some [0x12, 0x34, 0x56, 0x78] ∧
    (LittleEndian.ctor host u32 0x12345678).map (LittleEndian.bytes host)
      = some [0x78, 0x56, 0x34, 0x12] := by
  obtain ⟨r, hr, -, hrb⟩ := swap_dispatch_spec T hT v hv
  refine ⟨?_, ?_, ?_, ?_⟩
  · cases host
    · refine ⟨⟨r⟩, ?_, object_representation_length _ T r, ?_⟩
      · show (swap_dispatch T v).map _ = _
        rw [hr]
        rfl
      · intro i hi
        show (object_representation .little T r)[i]? = _
        rw [object_representation_getElem? .little T r i hi, hrb i hi]
    · refine ⟨⟨v⟩, rfl, object_representation_length _ T v, ?_⟩
      intro i hi
      exact object_representation_getElem? .big T v i hi
  · cases host
    · refine ⟨⟨v⟩, rfl, object_representation_length _ T v, ?_⟩
      intro i hi
      exact object_representation_getElem? .little T v i hi
    · refine ⟨⟨r⟩, ?_, object_representation_length _ T r, ?_⟩
      · show (swap_dispatch T v).map _ = _
        rw [hr]
        rfl
      · intro i hi
        show (object_representation .big T r)[i]? = _
        rw [object_representation_getElem? .big T r i hi]
        simp only
        rw [hrb _ (by omega)]
        congr 2
        omega
  · cases host <;> decide
  · cases host <;> decide

theorem wrapper_bytes_in_declared_order_witness :
    i16.supported ∧ i16.holds (-2) ∧
    ((∃ w, BigEndian.ctor .little i16 (-2) = some w ∧ (w.bytes .little).length = i16.size ∧
      ∀ i, i < i16.size → (w.bytes .little)[i]? = some (i16.byte (-2) (i16.size - 1 - i))) ∧
    (∃ w, LittleEndian.ctor .little i16 (-2) = some w ∧
      (w.bytes .little).length = i16.size ∧
      ∀ i, i < i16.size → (w.bytes .little)[i]? = some (i16.byte (-2) i)) ∧
    (BigEndian.ctor .little u32 0x12345678).map (BigEndian.bytes .little)
      = some [0x12, 0x34, 0x56, 0x78] ∧
    (LittleEndian.ctor .little u32 0x12345678).map (LittleEndian.bytes .little)
      = some [0x78, 0x56, 0x34, 0x12]) :=
  ⟨by decide, by decide,
    wrapper_bytes_in_declared_order .little i16 (-2) (by decide) (by decide)⟩

/-- C4: on either host and for every supported size `k`, after the `k` bytes of a wrapper,
whatever it held, are overwritten through the byte view with `b[0..k-1]`, `operator T`
returns the value of `T` whose bit pattern is the sum of `b[i] * 256^(k-1-i)` for
`BigEndian<T>` and the sum of `b[i] * 256^i` for `LittleEndian<T>`. -/
theorem read_after_overwriting_bytes (host : ByteOrder) (T : ScalarType)
    (w : BigEndian T) (w' : LittleEndian T) (b : List Int)
    (hT : T.supported) (hb : valid_bytes b) (hl : b.length = T.size) :
    (w.overwrite_bytes host b).operator_T host
      = some (static_cast T (∑ i in Finset.range T.size, b.getD i 0 * 256 ^ (T.size - 1 - i))) ∧
    (w'.overwrite_bytes host b).operator_T host
      = some (static_cast T (∑ i in Finset.range T.size, b.getD i 0 * 256 ^ i)) := by
  have hk := supported_pos T hT
  have hbr : valid_bytes b.reverse := fun c hc => hb c (List.mem_reverse.mp hc)
  have hs1 := le_value_sum b
  have hs2 := le_value_reverse_sum b
  rw [hl] at hs1 hs2
  rw [← hs1, ← hs2]
  constructor
  · show convert_between_host_and_big_endian host T (store_bytes host T w.m_value b) = _
    rw [store_bytes_eq host T hk _ b hb hl]
    cases host
    · exact swap_dispatch_le_value T hT b hb hl
    · rfl
  · show convert_between_host_and_little_endian host T (store_bytes host T w'.m_value b) = _
    rw [store_bytes_eq host T hk _ b hb hl]
    cases host
    · rfl
    · have h := swap_dispatch_le_value T hT b.reverse hbr (by simpa using hl)
      rw [List.reverse_reverse] at h
      exact h

theorem read_after_overwriting_bytes_witness :
    i32.supported ∧ valid_bytes [0xff, 0xff, 0xff, 0xfe] ∧
    [0xff, 0xff, 0xff, (0xfe : Int)].length = i32.size ∧
    (((BigEndian.mk 7 : BigEndian i32).overwrite_bytes .little
        [0xff, 0xff, 0xff, 0xfe]).operator_T .little
      = some (static_cast i32 (∑ i in Finset.range i32.size,
          [0xff, 0xff, 0xff, (0xfe : Int)].getD i 0 * 256 ^ (i32.size - 1 - i))) ∧
    ((LittleEndian.mk 7 : LittleEndian i32).overwrite_bytes .little
        [0xff, 0xff, 0xff, 0xfe]).operator_T .little
      = some (static_cast i32 (∑ i in Finset.range i32.size,
          [0xff, 0xff, 0xff, (0xfe : Int)].getD i 0 * 256 ^ i))) :=
  ⟨by decide, by decide, rfl,
    read_after_overwriting_bytes .little i32 ⟨7⟩ ⟨7⟩ [0xff, 0xff, 0xff, 0xfe]
      (by decide) (by decide) rfl⟩

/-- C9: on either host and for every supported size, constructing a wrapper of the same
variant from the `operator T` read of a wrapper `w` gives a wrapper with the stored bits
of `w`, also when the bytes of `w` were set arbitrarily through the byte view. -/
theorem wrapper_rebuilt_from_read (host : ByteOrder) (T : ScalarType) (hT : T.supported)
    (w : LittleEndian T) (v : BigEndian T) (hw : T.holds w.m_value)
    (hv : T.holds v.m_value) :
    (w.operator_T host).bind (LittleEndian.ctor host T) = some w ∧
    (v.operator_T host).bind (BigEndian.ctor host T) = some v ∧
    (∀ (w0 : LittleEndian T) (b : List Int), valid_bytes b → b.length = T.size →
      ((w0.overwrite_bytes host b).operator_T host).bind (LittleEndian.ctor host T)
        = some (w0.overwrite_bytes host b)) ∧
    (∀ (v0 : BigEndian T) (b : List Int), valid_bytes b → b.length = T.size →
      ((v0.overwrite_bytes host b).operator_T host).bind (BigEndian.ctor host T)
        = some (v0.overwrite_bytes host b)) := by
  have hk := supported_pos T hT
  have hL : ∀ u : LittleEndian T, T.holds u.m_value →
      (u.operator_T host).bind (LittleEndian.ctor host T) = some u := by
    intro u hu
    obtain ⟨m⟩ := u
    have h := (convert_twice_aux host T m hT hu).1
    obtain ⟨r, hr, -⟩ := (conversion_returns host T m hT hu).1
    simp only [LittleEndian.operator_T, LittleEndian.ctor] at h ⊢
    rw [hr] at h ⊢
    simp only [Option.some_bind] at h ⊢
    rw [h]
    rfl
  have hB : ∀ u : BigEndian T, T.holds u.m_value →
      (u.operator_T host).bind (BigEndian.ctor host T) = some u := by
    intro u hu
    obtain ⟨m⟩ := u
    have h := (convert_twice_aux host T m hT hu).2
    obtain ⟨r, hr, -⟩ := (conversion_returns host T m hT hu).2
    simp only [BigEndian.operator_T, BigEndian.ctor] at h ⊢
    rw [hr] at h ⊢
    simp only [Option.some_bind] at h ⊢
    rw [h]
    rfl
  refine ⟨hL w hw, hB v hv, ?_, ?_⟩
  · intro w0 b hb hl
    apply hL
    show T.holds (store_bytes host T w0.m_value b)
    rw [store_bytes_eq host T hk _ b hb hl]
    exact value_of_representation_holds host T hk b
  · intro v0 b hb hl
    apply hB
    show T.holds (store_bytes host T v0.m_value b)
    rw [store_bytes_eq host T hk _ b hb hl]
    exact value_of_representation_holds host T hk b

theorem wrapper_rebuilt_from_read_witness :
    u32.supported ∧ u32.holds (LittleEndian.mk 0x78563412 : LittleEndian u32).m_value ∧
    u32.holds (BigEndian.mk 0x12345678 : BigEndian u32).m_value ∧
    (((LittleEndian.mk 0x78563412 : LittleEndian u32).operator_T .big).bind
        (LittleEndian.ctor .big u32) = some ⟨0x78563412⟩ ∧
    ((BigEndian.mk 0x12345678 : BigEndian u32).operator_T .big).bind
        (BigEndian.ctor .big u32) = some ⟨0x12345678⟩ ∧
    (∀ (w0 : LittleEndian u32) (b : List Int), valid_bytes b → b.length = u32.size →
      ((w0.overwrite_bytes .big b).operator_T .big).bind (LittleEndian.ctor .big u32)
        = some (w0.overwrite_bytes .big b)) ∧
    (∀ (v0 : BigEndian u32) (b : List Int), valid_bytes b → b.length = u32.size →
      ((v0.overwrite_bytes .big b).operator_T .big).bind (BigEndian.ctor .big u32)
        = some (v0.overwrite_bytes .big b))) :=
  ⟨by decide, by decide, by decide,
    wrapper_rebuilt_from_read .big u32 (by decide) ⟨0x78563412⟩ ⟨0x12345678⟩
      (by decide) (by decide)⟩

/-- C10: on either host and for every supported size, a default-constructed
`LittleEndian<T>` or `BigEndian<T>` has all its bytes zero, reads back as `0`, and is
the wrapper constructed from the value `0`. -/
theorem default_wrapper_is_zero (host : ByteOrder) (T : ScalarType) (hT : T.supported) :
    ((LittleEndian.ctor_default T).bytes host = List.replicate T.size 0 ∧
      (LittleEndian.ctor_default T).operator_T host = some 0 ∧
      LittleEndian.ctor host T 0 = some (LittleEndian.ctor_default T)) ∧
    ((BigEndian.ctor_default T).bytes host = List.replicate T.size 0 ∧
      (BigEndian.ctor_default T).operator_T host = some 0 ∧
      BigEndian.ctor host T 0 = some (BigEndian.ctor_default T)) := by
  have hz : object_representation host T 0 = List.replicate T.size 0 := by
    unfold object_representation
    cases host <;> simp [ScalarType.byte]
  have hs : swap_dispatch T 0 = some 0 := by
    obtain ⟨k, s⟩ := T
    rcases hT with h | h | h | h <;> simp only at h <;> subst h <;> cases s <;> decide
  refine ⟨⟨hz, ?_, ?_⟩, ⟨hz, ?_, ?_⟩⟩
  · cases host
    · rfl
    · exact hs
  · cases host
    · rfl
    · show (swap_dispatch T 0).map _ = _
      rw [hs]
      rfl
  · cases host
    · exact hs
    · rfl
  · cases host
    · show (swap_dispatch T 0).map _ = _
      rw [hs]
      rfl
    · rfl

theorem default_wrapper_is_zero_witness :
    i64.supported ∧
    (((LittleEndian.ctor_default i64).bytes .big = List.replicate i64.size 0 ∧
      (LittleEndian.ctor_default i64).operator_T .big = some 0 ∧
      LittleEndian.ctor .big i64 0 = some (LittleEndian.ctor_default i64)) ∧
    ((BigEndian.ctor_default i64).bytes .big = List.replicate i64.size 0 ∧
      (BigEndian.ctor_default i64).operator_T .big = some 0 ∧
      BigEndian.ctor .big i64 0 = some (BigEndian.ctor_default i64))) :=
  ⟨by decide, default_wrapper_is_zero .big i64 (by decide)⟩

/-! ## Sizes outside and inside the dispatch -/

theorem swap_dispatch_unsupported (T : ScalarType) (hT : ¬ T.supported) (x : Int) :
    swap_dispatch T x = none := by
  unfold ScalarType.supported at hT
  unfold swap_dispatch
  rw [if_neg (by omega), if_neg (by omega), if_neg (by omega), if_neg (by omega)]

theorem swap_dispatch_returns (T : ScalarType) (hT : T.supported) (x : Int) :
    ∃ r, swap_dispatch T x = some r := by
  unfold swap_dispatch
  rcases hT with h | h | h | h <;> simp [h]

/-- C11, as the code has it: over a scalar whose size is not 1, 2, 4 or 8 the conversion
that reorders bytes on the host (little-endian on a big-endian host, big-endian and
network on a little-endian host) reaches no `return` and produces no value, and so
does the value constructor of the wrapper of that order; the conversion that is the
identity on the host returns its argument and the wrapper of that order is constructed. -/
theorem unsupported_size_behaviour (T : ScalarType) (x : Int) (hT : ¬ T.supported) :
    (convert_between_host_and_little_endian .big T x = none ∧
      convert_between_host_and_big_endian .little T x = none ∧
      convert_between_host_and_network_endian .little T x = none ∧
      LittleEndian.ctor .big T x = none ∧
      BigEndian.ctor .little T x = none) ∧
    (convert_between_host_and_little_endian .little T x = some x ∧
      convert_between_host_and_big_endian .big T x = some x ∧
      convert_between_host_and_network_endian .big T x = some x ∧
      LittleEndian.ctor .little T x = some ⟨x⟩ ∧
      BigEndian.ctor .big T x = some ⟨x⟩) := by
  have h := swap_dispatch_unsupported T hT x
  have hl : convert_between_host_and_little_endian .big T x = none := h
  have hb : convert_between_host_and_big_endian .little T x = none := h
  refine ⟨⟨hl, hb, hb, ?_, ?_⟩, ⟨rfl, rfl, rfl, rfl, rfl⟩⟩
  · unfold LittleEndian.ctor
    rw [hl]
    rfl
  · unfold BigEndian.ctor
    rw [hb]
    rfl

theorem unsupported_size_behaviour_witness :
    ¬ (ScalarType.mk 16 false).supported ∧
    ((convert_between_host_and_little_endian .big ⟨16, false⟩ 1 = none ∧
      convert_between_host_and_big_endian .little ⟨16, false⟩ 1 = none ∧
      convert_between_host_and_network_endian .little ⟨16, false⟩ 1 = none ∧
      LittleEndian.ctor .big ⟨16, false⟩ 1 = none ∧
      BigEndian.ctor .little ⟨16, false⟩ 1 = none) ∧
    (convert_between_host_and_little_endian .little ⟨16, false⟩ 1 = some 1 ∧
      convert_between_host_and_big_endian .big ⟨16, false⟩ 1 = some 1 ∧
      convert_between_host_and_network_endian .big ⟨16, false⟩ 1 = some 1 ∧
      LittleEndian.ctor .little ⟨16, false⟩ 1 = some ⟨1⟩ ∧
      BigEndian.ctor .big ⟨16, false⟩ 1 = some ⟨1⟩)) :=
  ⟨by decide, unsupported_size_behaviour ⟨16, false⟩ 1 (by decide)⟩

/-- C11, as stated, fails: over the 16-byte unsigned type, whose size is none of 1, 2, 4,
8, the little-endian conversion and `LittleEndian(T)` on a little-endian host, and the
big-endian and network conversions and `BigEndian(T)` on a big-endian host, all
produce a value. -/
theorem unsupported_size_produces_value :
    ¬ (ScalarType.mk 16 false).supported ∧
    (ScalarType.mk 16 false).holds 1 ∧
    convert_between_host_and_little_endian .little ⟨16, false⟩ 1 = some 1 ∧
    LittleEndian.ctor .little ⟨16, false⟩ 1 = some ⟨1⟩ ∧
    convert_between_host_and_big_endian .big ⟨16, false⟩ 1 = some 1 ∧
    convert_between_host_and_network_endian .big ⟨16, false⟩ 1 = some 1 ∧
    BigEndian.ctor .big ⟨16, false⟩ 1 = some ⟨1⟩ := by
  refine ⟨by decide, ?_, rfl, rfl, rfl, rfl, rfl⟩
  norm_num [ScalarType.holds, ScalarType.min_value, ScalarType.max_value, ScalarType.bits]

/-- C12: on either host and for every scalar of size 1, 2, 4 or 8, each conversion reaches
a `return` for every argument, the value constructor and `operator T` of both wrappers
yield a result for every argument and every stored value, and the byte view of a
wrapper is its `sizeof(T)` bytes. -/
theorem operations_are_total (host : ByteOrder) (T : ScalarType) (x : Int)
    (w : LittleEndian T) (v : BigEndian T) (hT : T.supported) :
    ((∃ r, convert_between_host_and_little_endian host T x = some r) ∧
      (∃ r, convert_between_host_and_big_endian host T x = some r) ∧
      (∃ r, convert_between_host_and_network_endian host T x = some r)) ∧
    ((∃ u, LittleEndian.ctor host T x = some u) ∧
      (∃ u, BigEndian.ctor host T x = some u)) ∧
    ((∃ r, w.operator_T host = some r) ∧ (∃ r, v.operator_T host = some r)) ∧
    ((w.bytes host).length = T.size ∧ (v.bytes host).length = T.size) := by
  have hl : ∀ y, ∃ r, convert_between_host_and_little_endian host T y = some r := by
    intro y
    cases host
    · exact ⟨y, rfl⟩
    · exact swap_dispatch_returns T hT y
  have hb : ∀ y, ∃ r, convert_between_host_and_big_endian host T y = some r := by
    intro y
    cases host
    · exact swap_dispatch_returns T hT y
    · exact ⟨y, rfl⟩
  refine ⟨⟨hl x, hb x, hb x⟩, ⟨?_, ?_⟩, ⟨hl _, hb _⟩,
    ⟨object_representation_length host T _, object_representation_length host T _⟩⟩
  · obtain ⟨r, hr⟩ := hl x
    exact ⟨⟨r⟩, by unfold LittleEndian.ctor; rw [hr]; rfl⟩
  · obtain ⟨r, hr⟩ := hb x
    exact ⟨⟨r⟩, by unfold BigEndian.ctor; rw [hr]; rfl⟩

theorem operations_are_total_witness :
    i64.supported ∧
    (((∃ r, convert_between_host_and_little_endian .big i64 (-1) = some r) ∧
      (∃ r, convert_between_host_and_big_endian .big i64 (-1) = some r) ∧
      (∃ r, convert_between_host_and_network_endian .big i64 (-1) = some r)) ∧
    ((∃ u, LittleEndian.ctor .big i64 (-1) = some u) ∧
      (∃ u, BigEndian.ctor .big i64 (-1) = some u)) ∧
    ((∃ r, (LittleEndian.mk 5 : LittleEndian i64).operator_T .big = some r) ∧
      (∃ r, (BigEndian.mk 5 : BigEndian i64).operator_T .big = some r)) ∧
    (((LittleEndian.mk 5 : LittleEndian i64).bytes .big).length = i64.size ∧
      ((BigEndian.mk 5 : BigEndian i64).bytes .big).length = i64.size)) :=
  ⟨by decide, operations_are_total .big i64 (-1) ⟨5⟩ ⟨5⟩ (by decide)⟩

/-- Two values of `T` with the same storage are equal. -/
theorem object_representation_injective (host : ByteOrder) (T : ScalarType) (hk : 0 < T.size)
    (a b : Int) (ha : T.holds a) (hb : T.holds b)
    (h : object_representation host T a = object_representation host T b) : a = b := by
  apply eq_of_bytes T hk a b ha hb
  intro i hi
  cases host
  · have h1 := object_representation_getElem? .little T a i hi
    rw [h, object_representation_getElem? .little T b i hi] at h1
    exact (Option.some.inj h1).symm
  · have hj : T.size - 1 - i < T.size := by omega
    have h1 := object_representation_getElem? .big T a (T.size - 1 - i) hj
    rw [h, object_representation_getElem? .big T b (T.size - 1 - i) hj] at h1
    have h2 := (Option.some.inj h1).symm
    simp only at h2
    have e : T.size - 1 - (T.size - 1 - i) = i := by omega
    rwa [e] at h2

/-- A value of `T` is the value read from its own storage. -/
theorem value_of_object_representation (host : ByteOrder) (T : ScalarType) (hk : 0 < T.size)
    (a : Int) (ha : T.holds a) :
    value_of_representation host T (object_representation host T a) = a := by
  apply object_representation_injective host T hk _ a
    (value_of_representation_holds host T hk _) ha
  exact object_representation_value host T _ (object_representation_valid host T a)
    (object_representation_length host T a)

/-! ## Size, formatting and traits of the wrappers -/

/-- C13: for every supported `T` and both wrappers, the read-only and the mutable byte
view have exactly `sizeof(T)` bytes (also after the bytes were overwritten), and the
wrapper holds nothing but these bytes: its stored value is the value read from them,
so two wrappers with the same bytes are equal. -/
theorem wrapper_is_its_bytes (host : ByteOrder) (T : ScalarType) (hT : T.supported)
    (w w2 : LittleEndian T) (v v2 : BigEndian T) (b : List Int)
    (hw : T.holds w.m_value) (hw2 : T.holds w2.m_value)
    (hv : T.holds v.m_value) (hv2 : T.holds v2.m_value) :
    ((w.bytes host).length = T.size ∧ (w.bytes_mut host).length = T.size ∧
      ((w.overwrite_bytes host b).bytes host).length = T.size ∧
      w = ⟨value_of_representation host T (w.bytes host)⟩ ∧
      (w.bytes host = w2.bytes host → w = w2)) ∧
    ((v.bytes host).length = T.size ∧ (v.bytes_mut host).length = T.size ∧
      ((v.overwrite_bytes host b).bytes host).length = T.size ∧
      v = ⟨value_of_representation host T (v.bytes host)⟩ ∧
      (v.bytes host = v2.bytes host → v = v2)) := by
  have hk := supported_pos T hT
  obtain ⟨m⟩ := w
  obtain ⟨m2⟩ := w2
  obtain ⟨n⟩ := v
  obtain ⟨n2⟩ := v2
  refine ⟨⟨object_representation_length host T _, object_representation_length host T _,
    object_representation_length host T _, ?_, ?_⟩,
    ⟨object_representation_length host T _, object_representation_length host T _,
    object_representation_length host T _, ?_, ?_⟩⟩
  · show LittleEndian.mk m = ⟨value_of_representation host T (object_representation host T m)⟩
    rw [value_of_object_representation host T hk m hw]
  · intro h
    have e : m = m2 := object_representation_injective host T hk m m2 hw hw2 h
    rw [e]
  · show BigEndian.mk n = ⟨value_of_representation host T (object_representation host T n)⟩
    rw [value_of_object_representation host T hk n hv]
  · intro h
    have e : n = n2 := object_representation_injective host T hk n n2 hv hv2 h
    rw [e]

theorem wrapper_is_its_bytes_witness :
    u16.supported ∧ u16.holds (LittleEndian.mk 0x0102 : LittleEndian u16).m_value ∧
    u16.holds (LittleEndian.mk 0x0304 : LittleEndian u16).m_value ∧
    u16.holds (BigEndian.mk 0x0102 : BigEndian u16).m_value ∧
    u16.holds (BigEndian.mk 0x0304 : BigEndian u16).m_value ∧
    ((((LittleEndian.mk 0x0102 : LittleEndian u16).bytes .big).length = u16.size ∧
      ((LittleEndian.mk 0x0102 : LittleEndian u16).bytes_mut .big).length = u16.size ∧
      (((LittleEndian.mk 0x0102 : LittleEndian u16).overwrite_bytes .big [7, 9]).bytes
        .big).length = u16.size ∧
      (LittleEndian.mk 0x0102 : LittleEndian u16)
        = ⟨value_of_representation .big u16
            ((LittleEndian.mk 0x0102 : LittleEndian u16).bytes .big)⟩ ∧
      ((LittleEndian.mk 0x0102 : LittleEndian u16).bytes .big
          = (LittleEndian.mk 0x0304 : LittleEndian u16).bytes .big →
        (LittleEndian.mk 0x0102 : LittleEndian u16) = ⟨0x0304⟩)) ∧
    (((BigEndian.mk 0x0102 : BigEndian u16).bytes .big).length = u16.size ∧
      ((BigEndian.mk 0x0102 : BigEndian u16).bytes_mut .big).length = u16.size ∧
      (((BigEndian.mk 0x0102 : BigEndian u16).overwrite_bytes .big [7, 9]).bytes
        .big).length = u16.size ∧
      (BigEndian.mk 0x0102 : BigEndian u16)
        = ⟨value_of_representation .big u16
            ((BigEndian.mk 0x0102 : BigEndian u16).bytes .big)⟩ ∧
      ((BigEndian.mk 0x0102 : BigEndian u16).bytes .big
          = (BigEndian.mk 0x0304 : BigEndian u16).bytes .big →
        (BigEndian.mk 0x0102 : BigEndian u16) = ⟨0x0304⟩))) :=
  ⟨by decide, by decide, by decide, by decide, by decide,
    wrapper_is_its_bytes .big u16 (by decide) ⟨0x0102⟩ ⟨0x0304⟩ ⟨0x0102⟩ ⟨0x0304⟩ [7, 9]
      (by decide) (by decide) (by decide) (by decide)⟩

/-- C15: for every formatter `f` of the wrapped type, on either host, formatting a
`LittleEndian<T>` or `BigEndian<T>` wrapper `w` gives `f` applied to the `operator T`
read of `w`, which exists on every supported size; formatting a wrapper constructed
from a value `v` of `T` gives `f v`. -/
theorem format_is_format_of_read {α : Type} (host : ByteOrder) (T : ScalarType)
    (f : Int → α) (w : LittleEndian T) (u : BigEndian T) (v : Int)
    (hT : T.supported) (hv : T.holds v) :
    (∃ r, w.operator_T host = some r ∧ w.format host f = some (f r)) ∧
    (∃ r, u.operator_T host = some r ∧ u.format host f = some (f r)) ∧
    (LittleEndian.ctor host T v).bind (LittleEndian.format host f) = some (f v) ∧
    (BigEndian.ctor host T v).bind (BigEndian.format host f) = some (f v) := by
  have hl : ∀ y, ∃ r, convert_between_host_and_little_endian host T y = some r := by
    intro y
    cases host
    · exact ⟨y, rfl⟩
    · exact swap_dispatch_returns T hT y
  have hb : ∀ y, ∃ r, convert_between_host_and_big_endian host T y = some r := by
    intro y
    cases host
    · exact swap_dispatch_returns T hT y
    · exact ⟨y, rfl⟩
  have h2 := convert_twice_aux host T v hT hv
  refine ⟨?_, ?_, ?_, ?_⟩
  · obtain ⟨r, hr⟩ := hl w.m_value
    exact ⟨r, hr, by unfold LittleEndian.format LittleEndian.operator_T; rw [hr]; rfl⟩
  · obtain ⟨r, hr⟩ := hb u.m_value
    exact ⟨r, hr, by unfold BigEndian.format BigEndian.operator_T; rw [hr]; rfl⟩
  · obtain ⟨r, hr⟩ := hl v
    have h3 := h2.1
    rw [hr, Option.some_bind] at h3
    unfold LittleEndian.ctor
    rw [hr]
    show (convert_between_host_and_little_endian host T r).map f = _
    rw [h3]
    rfl
  · obtain ⟨r, hr⟩ := hb v
    have h3 := h2.2
    rw [hr, Option.some_bind] at h3
    unfold BigEndian.ctor
    rw [hr]
    show (convert_between_host_and_big_endian host T r).map f = _
    rw [h3]
    rfl

theorem format_is_format_of_read_witness :
    u16.supported ∧ u16.holds 0x0102 ∧
    ((∃ r, (LittleEndian.mk 7 : LittleEndian u16).operator_T .big = some r ∧
        (LittleEndian.mk 7 : LittleEndian u16).format .big (fun n => 2 * n) = some (2 * r)) ∧
    (∃ r, (BigEndian.mk 7 : BigEndian u16).operator_T .big = some r ∧
        (BigEndian.mk 7 : BigEndian u16).format .big (fun n => 2 * n) = some (2 * r)) ∧
    (LittleEndian.ctor .big u16 0x0102).bind (LittleEndian.format .big (fun n => 2 * n))
      = some (2 * 0x0102) ∧
    (BigEndian.ctor .big u16 0x0102).bind (BigEndian.format .big (fun n => 2 * n))
      = some (2 * 0x0102)) :=
  ⟨by decide, by decide,
    format_is_format_of_read .big u16 (fun n => 2 * n) ⟨7⟩ ⟨7⟩ 0x0102 (by decide) (by decide)⟩

/-- C16: `Traits<LittleEndian<T>>::is_trivially_serializable()` and
`Traits<BigEndian<T>>::is_trivially_serializable()` return true exactly when
`Traits<T>::is_trivially_serializable()` does. -/
theorem wrapper_traits_follow_wrapped (traits_T : Traits) :
    ((Traits_LittleEndian traits_T).is_trivially_serializable = true ↔
      traits_T.is_trivially_serializable = true) ∧
    ((Traits_BigEndian traits_T).is_trivially_serializable = true ↔
      traits_T.is_trivially_serializable = true) :=
  ⟨Iff.rfl, Iff.rfl⟩

/-! ## Signedness and the two conversions together -/

theorem make_unsigned_supported (T : ScalarType) (hT : T.supported) :
    T.make_unsigned.supported := hT

theorem static_cast_make_unsigned (T : ScalarType) (y : Int) :
    static_cast T.make_unsigned y = y % 2 ^ T.bits :=
  static_cast_unsigned T.size y

theorem byte_make_unsigned (T : ScalarType) (x : Int) :
    T.make_unsigned.byte (static_cast T.make_unsigned x) = T.byte x := by
  funext i
  have h := static_cast_emod T.make_unsigned x
  have hb : T.make_unsigned.bits = T.bits := rfl
  unfold ScalarType.byte
  rw [h, hb]

/-- The cast to the unsigned type of the same width and back gives the value back. -/
theorem static_cast_round_trip (T : ScalarType) (hk : 0 < T.size) (x : Int)
    (hx : T.holds x) : static_cast T (static_cast T.make_unsigned x) = x := by
  rw [static_cast_make_unsigned, static_cast_emod_arg, static_cast_of_holds T hk x hx]

/-- The dispatch on a value of `T` and on its bit pattern, taken as a value of the
unsigned type of the same width, give the same bit pattern. -/
theorem swap_dispatch_make_unsigned (T : ScalarType) (hT : T.supported) (x : Int)
    (hx : T.holds x) :
    ∃ r ru, swap_dispatch T x = some r ∧
      swap_dispatch T.make_unsigned (static_cast T.make_unsigned x) = some ru ∧
      static_cast T.make_unsigned r = ru ∧ static_cast T ru = r := by
  have hk := supported_pos T hT
  have h1 := swap_dispatch_eq T hT x hx
  have h2 := swap_dispatch_eq T.make_unsigned (make_unsigned_supported T hT)
    (static_cast T.make_unsigned x) (static_cast_holds T.make_unsigned hk x)
  rw [byte_make_unsigned] at h2
  have hs : T.make_unsigned.size = T.size := rfl
  rw [hs] at h2
  refine ⟨_, _, h1, h2, ?_, ?_⟩
  · rw [static_cast_make_unsigned, static_cast_make_unsigned, static_cast_emod]
  · rw [static_cast_make_unsigned, static_cast_emod_arg]

/-- The dispatch on a value of `T` and on its bit pattern: both results carry every byte
of the argument, in the opposite order, and they have the same bit pattern. -/
theorem swap_dispatch_signedness (T : ScalarType) (hT : T.supported) (x : Int)
    (hx : T.holds x) :
    ∃ r ru, swap_dispatch T x = some r ∧
      swap_dispatch T.make_unsigned (static_cast T.make_unsigned x) = some ru ∧
      static_cast T.make_unsigned r = ru ∧ static_cast T ru = r ∧
      T.holds r ∧ T.make_unsigned.holds ru ∧
      ∀ i, i < T.size →
        T.byte r i = T.byte x (T.size - 1 - i) ∧
        T.make_unsigned.byte ru i
          = T.make_unsigned.byte (static_cast T.make_unsigned x) (T.size - 1 - i) := by
  have hk := supported_pos T hT
  obtain ⟨r, ru, h1, h2, h3, h4⟩ := swap_dispatch_make_unsigned T hT x hx
  obtain ⟨r2, hr2, hrT, hrb⟩ := swap_dispatch_spec T hT x hx
  obtain ⟨ru2, hru2, hruT, hrub⟩ := swap_dispatch_spec T.make_unsigned
    (make_unsigned_supported T hT) (static_cast T.make_unsigned x)
    (static_cast_holds T.make_unsigned hk x)
  have e1 : r2 = r := Option.some.inj (hr2.symm.trans h1)
  have e2 : ru2 = ru := Option.some.inj (hru2.symm.trans h2)
  subst e1
  subst e2
  exact ⟨_, _, h1, h2, h3, h4, hrT, hruT, fun i hi => ⟨hrb i hi, hrub i hi⟩⟩

/-- C17: on either host, for every size in 1, 2, 4, 8 and every value `x` of `T`, negative
ones of a signed `T` included, each conversion yields the value `r` of `T` whose bit
pattern `ru` is what the same conversion yields on `x` cast to the unsigned type of the
same width; no bit is lost or added on the way: where the conversion is the identity
`r` is `x`, and where it reorders bytes every one of the `sizeof(T)` bytes of `r`, and
of `ru`, is the byte of `x` at the mirrored position; the casts to the unsigned type
and back give `x` again. -/
theorem conversion_ignores_signedness (host : ByteOrder) (T : ScalarType) (x : Int)
    (hT : T.supported) (hx : T.holds x) :
    static_cast T (static_cast T.make_unsigned x) = x ∧
    (∃ r ru, convert_between_host_and_little_endian host T x = some r ∧
      convert_between_host_and_little_endian host T.make_unsigned
        (static_cast T.make_unsigned x) = some ru ∧
      static_cast T.make_unsigned r = ru ∧ static_cast T ru = r ∧
      T.holds r ∧ T.make_unsigned.holds ru ∧
      (host = .little → r = x ∧ ru = static_cast T.make_unsigned x) ∧
      (host = .big → ∀ i, i < T.size →
        T.byte r i = T.byte x (T.size - 1 - i) ∧
        T.make_unsigned.byte ru i
          = T.make_unsigned.byte (static_cast T.make_unsigned x) (T.size - 1 - i))) ∧
    (∃ r ru, convert_between_host_and_big_endian host T x = some r ∧
      convert_between_host_and_big_endian host T.make_unsigned
        (static_cast T.make_unsigned x) = some ru ∧
      static_cast T.make_unsigned r = ru ∧ static_cast T ru = r ∧
      T.holds r ∧ T.make_unsigned.holds ru ∧
      (host = .big → r = x ∧ ru = static_cast T.make_unsigned x) ∧
      (host = .little → ∀ i, i < T.size →
        T.byte r i = T.byte x (T.size - 1 - i) ∧
        T.make_unsigned.byte ru i
          = T.make_unsigned.byte (static_cast T.make_unsigned x) (T.size - 1 - i))) ∧
    (∃ r ru, convert_between_host_and_network_endian host T x = some r ∧
      convert_between_host_and_network_endian host T.make_unsigned
        (static_cast T.make_unsigned x) = some ru ∧
      static_cast T.make_unsigned r = ru ∧ static_cast T ru = r ∧
      T.holds r ∧ T.make_unsigned.holds ru ∧
      (host = .big → r = x ∧ ru = static_cast T.make_unsigned x) ∧
      (host = .little → ∀ i, i < T.size →
        T.byte r i = T.byte x (T.size - 1 - i) ∧
        T.make_unsigned.byte ru i
          = T.make_unsigned.byte (static_cast T.make_unsigned x) (T.size - 1 - i))) := by
  have hk := supported_pos T hT
  have h0 := static_cast_round_trip T hk x hx
  have hu : T.make_unsigned.holds (static_cast T.make_unsigned x) :=
    static_cast_holds T.make_unsigned hk x
  obtain ⟨r, ru, h1, h2, h3, h4, h5, h6, h7⟩ := swap_dispatch_signedness T hT x hx
  cases host
  · refine ⟨h0, ⟨x, _, rfl, rfl, rfl, h0, hx, hu, fun _ => ⟨rfl, rfl⟩, ?_⟩,
      ⟨r, ru, h1, h2, h3, h4, h5, h6, ?_, fun _ => h7⟩,
      ⟨r, ru, h1, h2, h3, h4, h5, h6, ?_, fun _ => h7⟩⟩
    · intro h
      cases h
    · intro h
      cases h
    · intro h
      cases h
  · refine ⟨h0, ⟨r, ru, h1, h2, h3, h4, h5, h6, ?_, fun _ => h7⟩,
      ⟨x, _, rfl, rfl, rfl, h0, hx, hu, fun _ => ⟨rfl, rfl⟩, ?_⟩,
      ⟨x, _, rfl, rfl, rfl, h0, hx, hu, fun _ => ⟨rfl, rfl⟩, ?_⟩⟩
    · intro h
      cases h
    · intro h
      cases h
    · intro h
      cases h

theorem conversion_ignores_signedness_witness :
    i32.supported ∧ i32.holds (-2) ∧
    (static_cast i32 (static_cast i32.make_unsigned (-2)) = -2 ∧
    (∃ r ru, convert_between_host_and_little_endian .little i32 (-2) = some r ∧
      convert_between_host_and_little_endian .little i32.make_unsigned
        (static_cast i32.make_unsigned (-2)) = some ru ∧
      static_cast i32.make_unsigned r = ru ∧ static_cast i32 ru = r ∧
      i32.holds r ∧ i32.make_unsigned.holds ru ∧
      (ByteOrder.little = .little → r = -2 ∧ ru = static_cast i32.make_unsigned (-2)) ∧
      (ByteOrder.little = .big → ∀ i, i < i32.size →
        i32.byte r i = i32.byte (-2) (i32.size - 1 - i) ∧
        i32.make_unsigned.byte ru i
          = i32.make_unsigned.byte (static_cast i32.make_unsigned (-2)) (i32.size - 1 - i))) ∧
    (∃ r ru, convert_between_host_and_big_endian .little i32 (-2) = some r ∧
      convert_between_host_and_big_endian .little i32.make_unsigned
        (static_cast i32.make_unsigned (-2)) = some ru ∧
      static_cast i32.make_unsigned r = ru ∧ static_cast i32 ru = r ∧
      i32.holds r ∧ i32.make_unsigned.holds ru ∧
      (ByteOrder.little = .big → r = -2 ∧ ru = static_cast i32.make_unsigned (-2)) ∧
      (ByteOrder.little = .little → ∀ i, i < i32.size →
        i32.byte r i = i32.byte (-2) (i32.size - 1 - i) ∧
        i32.make_unsigned.byte ru i
          = i32.make_unsigned.byte (static_cast i32.make_unsigned (-2)) (i32.size - 1 - i))) ∧
    (∃ r ru, convert_between_host_and_network_endian .little i32 (-2) = some r ∧
      convert_between_host_and_network_endian .little i32.make_unsigned
        (static_cast i32.make_unsigned (-2)) = some ru ∧
      static_cast i32.make_unsigned r = ru ∧ static_cast i32 ru = r ∧
      i32.holds r ∧ i32.make_unsigned.holds ru ∧
      (ByteOrder.little = .big → r = -2 ∧ ru = static_cast i32.make_unsigned (-2)) ∧
      (ByteOrder.little = .little → ∀ i, i < i32.size →
        i32.byte r i = i32.byte (-2) (i32.size - 1 - i) ∧
        i32.make_unsigned.byte ru i
          = i32.make_unsigned.byte (static_cast i32.make_unsigned (-2))
              (i32.size - 1 - i)))) :=
  ⟨by decide, by decide,
    conversion_ignores_signedness .little i32 (-2) (by decide) (by decide)⟩

/-- The dispatch computes the byte reversal. -/
theorem swap_dispatch_byte_reverse (T : ScalarType) (hT : T.supported) (x : Int)
    (hx : T.holds x) : swap_dispatch T x = some (byte_reverse T x) :=
  swap_dispatch_eq T hT x hx

/-- C18: on either host, for every supported size and every value `x`, the two conversions
commute and either composition is the byte reversal of `x`, the value of `T` whose byte
`i` is byte `k - 1 - i` of `x`; on a little-endian host the little-endian conversion
is the identity and the big-endian one the byte reversal, on a big-endian host the
other way round, and on neither host are both the identity on all supported types. -/
theorem conversions_commute_to_byte_reverse (host : ByteOrder) (T : ScalarType) (x : Int)
    (hT : T.supported) (hx : T.holds x) :
    ((convert_between_host_and_little_endian host T x).bind
        (convert_between_host_and_big_endian host T) = some (byte_reverse T x) ∧
      (convert_between_host_and_big_endian host T x).bind
        (convert_between_host_and_little_endian host T) = some (byte_reverse T x)) ∧
    (T.holds (byte_reverse T x) ∧
      ∀ i, i < T.size → T.byte (byte_reverse T x) i = T.byte x (T.size - 1 - i)) ∧
    (host = .little →
      convert_between_host_and_little_endian host T x = some x ∧
      convert_between_host_and_big_endian host T x = some (byte_reverse T x)) ∧
    (host = .big →
      convert_between_host_and_big_endian host T x = some x ∧
      convert_between_host_and_little_endian host T x = some (byte_reverse T x)) ∧
    ¬ ((∀ (T2 : ScalarType) (y : Int), T2.supported → T2.holds y →
          convert_between_host_and_little_endian host T2 y = some y) ∧
       (∀ (T2 : ScalarType) (y : Int), T2.supported → T2.holds y →
          convert_between_host_and_big_endian host T2 y = some y)) := by
  have hr := swap_dispatch_byte_reverse T hT x hx
  obtain ⟨r, hr2, hrT, hrb⟩ := swap_dispatch_spec T hT x hx
  have e : r = byte_reverse T x := Option.some.inj (hr2.symm.trans hr)
  subst e
  refine ⟨?_, ⟨hrT, hrb⟩, ?_, ?_, ?_⟩
  · cases host
    · exact ⟨hr, by
        show (swap_dispatch T x).bind _ = _
        rw [hr]
        rfl⟩
    · exact ⟨by
        show (swap_dispatch T x).bind _ = _
        rw [hr]
        rfl, hr⟩
  · rintro rfl
    exact ⟨rfl, hr⟩
  · rintro rfl
    exact ⟨rfl, hr⟩
  · rintro ⟨h1, h2⟩
    cases host
    · have h := h2 u16 1 (by decide) (by decide)
      revert h
      decide
    · have h := h1 u16 1 (by decide) (by decide)
      revert h
      decide

theorem conversions_commute_to_byte_reverse_witness :
    u32.supported ∧ u32.holds 0x12345678 ∧
    (((convert_between_host_and_little_endian .little u32 0x12345678).bind
        (convert_between_host_and_big_endian .little u32)
          = some (byte_reverse u32 0x12345678) ∧
      (convert_between_host_and_big_endian .little u32 0x12345678).bind
        (convert_between_host_and_little_endian .little u32)
          = some (byte_reverse u32 0x12345678)) ∧
    (u32.holds (byte_reverse u32 0x12345678) ∧
      ∀ i, i < u32.size →
        u32.byte (byte_reverse u32 0x12345678) i = u32.byte 0x12345678 (u32.size - 1 - i)) ∧
    (ByteOrder.little = .little →
      convert_between_host_and_little_endian .little u32 0x12345678 = some 0x12345678 ∧
      convert_between_host_and_big_endian .little u32 0x12345678
        = some (byte_reverse u32 0x12345678)) ∧
    (ByteOrder.little = .big →
      convert_between_host_and_big_endian .little u32 0x12345678 = some 0x12345678 ∧
      convert_between_host_and_little_endian .little u32 0x12345678
        = some (byte_reverse u32 0x12345678)) ∧
    ¬ ((∀ (T2 : ScalarType) (y : Int), T2.supported → T2.holds y →
          convert_between_host_and_little_endian .little T2 y = some y) ∧
       (∀ (T2 : ScalarType) (y : Int), T2.supported → T2.holds y →
          convert_between_host_and_big_endian .little T2 y = some y))) :=
  ⟨by decide, by decide,
    conversions_commute_to_byte_reverse .little u32 0x12345678 (by decide) (by decide)⟩

end AK
